import Mathlib

/-!
# MercatorMap: projection, great-circle path and raster decoder

A shallow embedding of `src/MercatorMap.cpp`.

* `float` values are real numbers; `sin`, `cos`, `tan`, `atan`, `asin`, `acos`,
  `exp`, `log`, `sqrt`, `fabs`, `fmin`, `fmax` are the real functions of the
  same name and `atan2 y x` is the argument of `x + y i` in `(-π, π]`.
  A division whose divisor is `0` has the value `0` here (the source has
  no such convention: it yields NaN or an infinity there).  Rounding to `float`
  is not modelled; where it decides the behaviour (a `cosAngle` that rounds to
  `1.0f`) the theorem states the exact value and the float nearest to it.
* `unsigned char` values are natural numbers below `256`.
* Loops are structural recursions over the remaining iterations, with the
  mutated locals passed as arguments.
-/

namespace MercatorMap

/-! ## Run-length decoder (`Map::DecodeRLE`) -/

/-- The `switch (I)` of `Map::DecodeRLE`: the `vec4` colour of index `I`,
components as the integers `0`/`1` the source writes.  The source has no
default case; `I = byte & 0x03` never reaches the last line. -/
def rleColor (I : Nat) : Nat × Nat × Nat × Nat :=
  match I with
  | 0 => (1, 1, 1, 1)
  | 1 => (0, 0, 1, 1)
  | 2 => (0, 1, 0, 1)
  | 3 => (0, 0, 0, 1)
  | _ => (0, 0, 0, 0)

/-- The cast `(unsigned char)(c * 255)` of a colour component. -/
def toUChar (c : Nat) : Nat := (c * 255) % 256

/-- The inner loop `for (j = 0; j < int(H) + 1; j++)` of `Map::DecodeRLE`,
with `n` iterations left: each one pushes the four bytes of `color`. -/
def pushRun (color : Nat × Nat × Nat × Nat) : Nat → List Nat → List Nat
  | 0, decodedData => decodedData
  | n + 1, decodedData =>
    pushRun color n
      (decodedData ++ [toUChar color.1, toUChar color.2.1, toUChar color.2.2.1,
        toUChar color.2.2.2])

/-- The outer loop of `Map::DecodeRLE` over the bytes of `compressedData`;
`decodedData` is the output vector, appended to. -/
def DecodeRLE : List Nat → List Nat → List Nat
  | [], decodedData => decodedData
  | byte :: rest, decodedData =>
    let H := (byte >>> 2) % 256
    let I := (byte &&& 0x03) % 256
    DecodeRLE rest (pushRun (rleColor I) (H + 1) decodedData)

/-- The four RGBA colours as the specification lists them:
white, blue, green, black. -/
def specColor (k : Nat) : List Nat :=
  if k = 0 then [255, 255, 255, 255]
  else if k = 1 then [0, 0, 255, 255]
  else if k = 2 then [0, 255, 0, 255]
  else [0, 0, 0, 255]

/-- The run of byte `b` as the specification words it: `(b >> 2) + 1` copies
of the colour selected by `b & 3`. -/
def specRun (b : Nat) : List Nat :=
  (List.replicate ((b >>> 2) + 1) (specColor (b &&& 3))).flatten

/-- The array `compressedData` of `MyWindow::onInitialization`. -/
def compressedData : List Nat :=
  [252, 252, 252, 252, 252, 252, 252, 252, 252, 0, 9, 80, 1, 148, 13, 72, 13, 140, 25, 60, 21, 132, 41, 12, 1, 28,
   25, 128, 61, 0, 17, 4, 29, 124, 81, 8, 37, 116, 89, 0, 69, 16, 5, 48, 97, 0, 77, 0, 25, 8, 1, 8, 253, 253, 253, 253,
   101, 10, 237, 14, 237, 14, 241, 10, 141, 2, 93, 14, 121, 2, 5, 6, 93, 14, 49, 6, 57, 26, 89, 18, 41, 10, 57, 26,
   89, 18, 41, 14, 1, 2, 45, 26, 89, 26, 33, 18, 57, 14, 93, 26, 33, 18, 57, 10, 93, 18, 5, 2, 33, 18, 41, 2, 5, 2, 5, 6,
   89, 22, 29, 2, 1, 22, 37, 2, 1, 6, 1, 2, 97, 22, 29, 38, 45, 2, 97, 10, 1, 2, 37, 42, 17, 2, 13, 2, 5, 2, 89, 10, 49,
   46, 25, 10, 101, 2, 5, 6, 37, 50, 9, 30, 89, 10, 9, 2, 37, 50, 5, 38, 81, 26, 45, 22, 17, 54, 77, 30, 41, 22, 17, 58,
   1, 2, 61, 38, 65, 2, 9, 58, 69, 46, 37, 6, 1, 10, 9, 62, 65, 38, 5, 2, 33, 102, 57, 54, 33, 102, 57, 30, 1, 14, 33, 2,
   9, 86, 9, 2, 21, 6, 13, 26, 5, 6, 53, 94, 29, 26, 1, 22, 29, 0, 29, 98, 5, 14, 9, 46, 1, 2, 5, 6, 5, 2, 0, 13, 0, 13,
   118, 1, 2, 1, 42, 1, 4, 5, 6, 5, 2, 4, 33, 78, 1, 6, 1, 6, 1, 10, 5, 34, 1, 20, 2, 9, 2, 12, 25, 14, 5, 30, 1, 54, 13, 6,
   9, 2, 1, 32, 13, 8, 37, 2, 13, 2, 1, 70, 49, 28, 13, 16, 53, 2, 1, 46, 1, 2, 1, 2, 53, 28, 17, 16, 57, 14, 1, 18, 1, 14,
   1, 2, 57, 24, 13, 20, 57, 0, 2, 1, 2, 17, 0, 17, 2, 61, 0, 5, 16, 1, 28, 25, 0, 41, 2, 117, 56, 25, 0, 33, 2, 1, 2, 117,
   52, 201, 48, 77, 0, 121, 40, 1, 0, 205, 8, 1, 0, 1, 12, 213, 4, 13, 12, 253, 253, 253, 141]

/-- The `width` and `height` that `onInitialization` passes to `Map::Map`,
which hands them on to `glTexImage2D`. -/
def mapWidth : Nat := 64

/-- See `mapWidth`. -/
def mapHeight : Nat := 64

/-- The `decodedData` vector of the constructor `Map::Map` after its call of
`DecodeRLE` on the empty vector. -/
def Map_decodedData (data : List Nat) : List Nat := DecodeRLE data []

/-! ## Generic segment loop of `Path::SetPath` -/

/-- The state update of the `for` loop of `Path::SetPath`, over the clip
coordinates still to come.  `prev` is `prevClipCoord` (`none` while
`hasPrev` is false), `cur` is `currentSegment`, `segs` is `pathSegments`;
`jump p c` is the test `fabs(c.x - p.x) > threshold`.  After the last sample
the trailing `if (!currentSegment.empty()) push_back` is applied. -/
def segmentLoop {α : Type} (jump : α → α → Bool) :
    List α → Option α → List α → List (List α) → List (List α)
  | [], _, cur, segs => if cur.isEmpty then segs else segs ++ [cur]
  | c :: rest, none, cur, segs => segmentLoop jump rest (some c) (cur ++ [c]) segs
  | c :: rest, some p, cur, segs =>
    if jump p c then segmentLoop jump rest (some c) ([] ++ [c]) (segs ++ [cur])
    else segmentLoop jump rest (some c) (cur ++ [c]) segs

/-! ## Vectors (`framework.h`) -/

/-- Modelled from the spec: the `vec2` of `framework.h` (not under `src/`),
the spec's Point2: an ordered pair of numbers. -/
@[ext]
structure vec2 where
  x : ℝ
  y : ℝ

/-- Modelled from the spec: the `vec3` of `framework.h` (not under `src/`),
the spec's Point3: a 3D vector. -/
@[ext]
structure vec3 where
  x : ℝ
  y : ℝ
  z : ℝ

/-- Modelled from the spec: the `vec4` of `framework.h` (not under `src/`),
an RGBA colour in the fragment shader. -/
@[ext]
structure vec4 where
  x : ℝ
  y : ℝ
  z : ℝ
  w : ℝ

noncomputable section

/-- The constant `M_PI`. -/
def M_PI : ℝ := Real.pi

/-- The library function `atan2(y, x)`: the angle of the point `(x, y)`,
in `(-π, π]`, and `0` at the origin. -/
def atan2 (y x : ℝ) : ℝ := Complex.arg ⟨x, y⟩

/-- Modelled from the spec: `dot` of `framework.h` (not under `src/`), the
scalar product the spec writes `dot(normal, sun)`. -/
def dot (a b : vec3) : ℝ := a.x * b.x + a.y * b.y + a.z * b.z

/-- Modelled from the spec: `length` of `framework.h` (not under `src/`), the
Euclidean norm the spec writes `|p|`. -/
def length (v : vec3) : ℝ := Real.sqrt (dot v v)

/-- Modelled from the spec: `normalize` of `framework.h` (not under `src/`):
the vector divided by its norm. -/
def normalize (v : vec3) : vec3 := ⟨v.x / length v, v.y / length v, v.z / length v⟩

/-- The product `A * v` of a scalar and a `vec3`. -/
def smul (A : ℝ) (v : vec3) : vec3 := ⟨A * v.x, A * v.y, A * v.z⟩

/-- The sum of two `vec3`. -/
def add (a b : vec3) : vec3 := ⟨a.x + b.x, a.y + b.y, a.z + b.z⟩

/-! ## Distance and coordinate transforms -/

/-- The function `CalculateDistance` (haversine). -/
def CalculateDistance (lonLat1 lonLat2 : vec2) (earthRadius : ℝ) : ℝ :=
  let dLat := lonLat2.y - lonLat1.y
  let dLon := lonLat2.x - lonLat1.x
  let a := Real.sin (dLat / 2) * Real.sin (dLat / 2) +
    Real.cos lonLat1.y * Real.cos lonLat2.y * Real.sin (dLon / 2) * Real.sin (dLon / 2)
  let c := 2 * atan2 (Real.sqrt a) (Real.sqrt (1 - a))
  earthRadius * c

/-- The function `RadFromDeg`. -/
def RadFromDeg (degrees : ℝ) : ℝ := degrees * (M_PI / 180)

/-- The function `MercatorY`. -/
def MercatorY (latitude : ℝ) : ℝ := Real.log (Real.tan (M_PI / 4 + latitude / 2))

/-- The function `ScreenToMercator`. -/
def ScreenToMercator (screenCoords : vec2) : vec2 :=
  ⟨screenCoords.x * M_PI, screenCoords.y * MercatorY (RadFromDeg 85)⟩

/-- The function `MercatorToClip`. -/
def MercatorToClip (mercatorCoords : vec2) : vec2 :=
  ⟨mercatorCoords.x / M_PI, mercatorCoords.y / MercatorY (RadFromDeg 85)⟩

/-- The function `MercatorToLonLat`. -/
def MercatorToLonLat (mercatorCoords : vec2) : vec2 :=
  ⟨mercatorCoords.x, 2 * Real.arctan (Real.exp mercatorCoords.y) - M_PI / 2⟩

/-- The function `LonLatToMercator`. -/
def LonLatToMercator (lonLat : vec2) : vec2 :=
  ⟨lonLat.x, Real.log (Real.tan (M_PI / 4 + lonLat.y / 2))⟩

/-- The function `LonLatToCartesian`. -/
def LonLatToCartesian (lonLat : vec2) (radius : ℝ) : vec3 :=
  let lon := lonLat.x
  let lat := lonLat.y
  ⟨radius * Real.cos lat * Real.cos lon, radius * Real.cos lat * Real.sin lon,
    radius * Real.sin lat⟩

/-- The function `CartesianToLonLat`. -/
def CartesianToLonLat (cart : vec3) : vec2 :=
  let r := length cart
  let lat := Real.arcsin (cart.z / r)
  let lon := atan2 cart.y cart.x
  ⟨lon, lat⟩

/-! ## `Path::SetPath` -/

/-- The local `startLonLat` of `Path::SetPath`. -/
def pathStartLonLat (startMercator : vec2) : vec2 :=
  ⟨startMercator.x, 2 * Real.arctan (Real.exp startMercator.y) - M_PI / 2⟩

/-- The local `endLonLat` of `Path::SetPath` after the adjustment by
`delta`. -/
def pathEndLonLat (startMercator endMercator : vec2) : vec2 :=
  let startLonLat := pathStartLonLat startMercator
  let endLonLat : vec2 :=
    ⟨endMercator.x, 2 * Real.arctan (Real.exp endMercator.y) - M_PI / 2⟩
  let delta := endLonLat.x - startLonLat.x
  if delta > M_PI then ⟨endLonLat.x - 2 * M_PI, endLonLat.y⟩
  else if delta < -M_PI then ⟨endLonLat.x + 2 * M_PI, endLonLat.y⟩
  else endLonLat

/-- The local `startCartesian` of `Path::SetPath`. -/
def pathStartCartesian (startMercator : vec2) : vec3 :=
  LonLatToCartesian (pathStartLonLat startMercator) 1

/-- The local `endCartesian` of `Path::SetPath`. -/
def pathEndCartesian (startMercator endMercator : vec2) : vec3 :=
  LonLatToCartesian (pathEndLonLat startMercator endMercator) 1

/-- The local `angle` of `Path::SetPath`: the clamped arc cosine of the
scalar product of the normalised end points. -/
def pathAngle (startMercator endMercator : vec2) : ℝ :=
  let cosAngle := dot (normalize (pathStartCartesian startMercator))
    (normalize (pathEndCartesian startMercator endMercator))
  let cosAngle := min (max cosAngle (-1)) 1
  Real.arccos cosAngle

/-- The value `clipCoord` computed by iteration `i` of the loop of
`Path::SetPath`, before the segment test. -/
def pathClipCoord (startMercator endMercator : vec2) (numPoints : ℕ) (i : ℕ) : vec2 :=
  let startCartesian := pathStartCartesian startMercator
  let endCartesian := pathEndCartesian startMercator endMercator
  let angle := pathAngle startMercator endMercator
  let t : ℝ := (i : ℝ) / (numPoints : ℝ)
  let A := Real.sin ((1 - t) * angle) / Real.sin angle
  let B := Real.sin (t * angle) / Real.sin angle
  let interpCartesian := normalize (add (smul A startCartesian) (smul B endCartesian))
  let interpLonLat := CartesianToLonLat interpCartesian
  let interpLonLat : vec2 :=
    if interpLonLat.x > M_PI then ⟨interpLonLat.x - 2 * M_PI, interpLonLat.y⟩
    else if interpLonLat.x < -M_PI then ⟨interpLonLat.x + 2 * M_PI, interpLonLat.y⟩
    else interpLonLat
  let interpMercator := LonLatToMercator interpLonLat
  MercatorToClip interpMercator

/-- The constant `threshold` of `Path::SetPath`. -/
def threshold : ℝ := 0.5

/-- The segment test `fabs(clipCoord.x - prevClipCoord.x) > threshold`. -/
def clipJump (prevClipCoord clipCoord : vec2) : Bool :=
  decide (|clipCoord.x - prevClipCoord.x| > threshold)

/-- The clip coordinates of the iterations `i = 0, …, numPoints`, in order. -/
def pathSamples (startMercator endMercator : vec2) (numPoints : ℕ) : List vec2 :=
  (List.range (numPoints + 1)).map (pathClipCoord startMercator endMercator numPoints)

/-- The method `Path::SetPath`: the value of `pathSegments` when it returns.
The counter `i` is a natural number (an `int` counter does not wrap for
`numPoints < 2^31 - 1`). -/
def SetPath (startMercator endMercator : vec2) (numPoints : ℕ) : List (List vec2) :=
  segmentLoop clipJump (pathSamples startMercator endMercator numPoints) none [] []

/-! ## Day and night -/

/-- The function `CalculateSunDirection`. -/
def CalculateSunDirection (hour : ℤ) : vec3 :=
  let longitudeAngle : ℝ := (hour : ℝ) * (360 / 24)
  let latitudeAngle := RadFromDeg 23
  let x := Real.cos latitudeAngle * Real.cos (RadFromDeg longitudeAngle)
  let y := Real.cos latitudeAngle * Real.sin (RadFromDeg longitudeAngle)
  let z := Real.sin latitudeAngle
  normalize ⟨x, y, z⟩

/-- The function `IsDaytime`. -/
def IsDaytime (surfaceNormal sunDirection : vec3) : Bool :=
  decide (dot surfaceNormal sunDirection > 0)

/-- The local `surfaceNormal` of the fragment shader's `main`, from the
texture coordinate. -/
def fragSurfaceNormal (texCoord : vec2) : vec3 :=
  let longitude := texCoord.x * 2.0 * 3.14159265359 - 3.14159265359
  let latitude := 1.57079632679 - texCoord.y * 3.14159265359
  normalize ⟨Real.cos latitude * Real.cos longitude, Real.cos latitude * Real.sin longitude,
    Real.sin latitude⟩

/-- The `main` of the fragment shader `fragSource`: the value of `outColor`.
`baseColor` is the sampled texel `texture(textureUnit, texCoord)`. -/
def fragMain (useTexture isMap : Bool) (baseColor : vec4) (texCoord : vec2)
    (color sunDirection : vec3) : vec4 :=
  if useTexture && isMap then
    let surfaceNormal := fragSurfaceNormal texCoord
    let isDaytime : Bool := decide (dot surfaceNormal sunDirection < 0.0)
    let adjustedColor : vec3 :=
      if isDaytime then ⟨baseColor.x, baseColor.y, baseColor.z⟩
      else ⟨baseColor.x * 0.5, baseColor.y * 0.5, baseColor.z * 0.5⟩
    ⟨adjustedColor.x, adjustedColor.y, adjustedColor.z, baseColor.w⟩
  else
    ⟨color.x, color.y, color.z, 1.0⟩

end

/-! ## Lemmas on the decoder -/

theorem pushRun_eq (color : Nat × Nat × Nat × Nat) (n : Nat) (out : List Nat) :
    pushRun color n out = out ++ (List.replicate n
      [toUChar color.1, toUChar color.2.1, toUChar color.2.2.1, toUChar color.2.2.2]).flatten := by
  induction n generalizing out with
  | zero => simp [pushRun]
  | succ n ih => simp [pushRun, ih, List.replicate_succ]

set_option maxRecDepth 100000 in
theorem byte_fields (b : Nat) (hb : b < 256) :
    (b >>> 2) % 256 = b >>> 2 ∧ (b &&& 0x03) % 256 = b &&& 3 ∧
    [toUChar (rleColor (b &&& 3)).1, toUChar (rleColor (b &&& 3)).2.1,
      toUChar (rleColor (b &&& 3)).2.2.1, toUChar (rleColor (b &&& 3)).2.2.2]
      = specColor (b &&& 3) := by
  revert b
  decide

theorem DecodeRLE_eq (data out : List Nat) (h : ∀ b ∈ data, b < 256) :
    DecodeRLE data out = out ++ (data.map specRun).flatten := by
  induction data generalizing out with
  | nil => simp [DecodeRLE]
  | cons b rest ih =>
    have hb : b < 256 := h b (List.mem_cons_self _ _)
    obtain ⟨h1, h2, h3⟩ := byte_fields b hb
    have hr : ∀ c ∈ rest, c < 256 := fun c hc => h c (List.mem_cons_of_mem _ hc)
    simp only [DecodeRLE]
    rw [ih _ hr, h1, h2, pushRun_eq, h3]
    simp [specRun, List.append_assoc]

theorem specColor_length (k : Nat) : (specColor k).length = 4 := by
  unfold specColor
  split_ifs <;> rfl

theorem specRun_length (b : Nat) : (specRun b).length = 4 * ((b >>> 2) + 1) := by
  simp [specRun, List.length_flatten, specColor_length, List.map_replicate, List.sum_replicate]
  ring

theorem specRuns_length (data : List Nat) :
    ((data.map specRun).flatten).length = 4 * (data.map (fun b => (b >>> 2) + 1)).sum := by
  induction data with
  | nil => simp
  | cons b rest ih =>
    simp only [List.map_cons, List.flatten_cons, List.length_append, List.sum_cons, ih,
      specRun_length]
    ring

/-! ## The decoder theorems -/

/-- C8: for every sequence of bytes, `Map::DecodeRLE` appends to the output, for each
byte `b` in input order, exactly `(b >> 2) + 1` copies of the four bytes of the colour
selected by `b & 3` (white, blue, green, black), so the number of bytes appended is
`4 · Σ ((b >> 2) + 1)`. -/
theorem DecodeRLE_appends_runs (data out : List Nat) (h : ∀ b ∈ data, b < 256) :
    DecodeRLE data out
        = out ++ (data.map (fun b =>
            (List.replicate ((b >>> 2) + 1)
              (if b &&& 3 = 0 then [255, 255, 255, 255]
               else if b &&& 3 = 1 then [0, 0, 255, 255]
               else if b &&& 3 = 2 then [0, 255, 0, 255]
               else [0, 0, 0, 255])).flatten)).flatten
      ∧ (DecodeRLE data out).length
        = out.length + 4 * (data.map (fun b => (b >>> 2) + 1)).sum := by
  have e := DecodeRLE_eq data out h
  refine ⟨e, ?_⟩
  rw [e, List.length_append, specRuns_length]

/-- Witness of `DecodeRLE_appends_runs`: the bytes `6` (two green pixels) and
`1` (one blue pixel) after an output holding the byte `9`. -/
theorem DecodeRLE_appends_runs_witness :
    (∀ b ∈ [6, 1], b < 256) ∧
    DecodeRLE [6, 1] [9] = [9, 0, 255, 0, 255, 0, 255, 0, 255, 0, 0, 255, 255] ∧
    (DecodeRLE [6, 1] [9]).length = 1 + 4 * 3 :=
  ⟨by decide,
   (DecodeRLE_appends_runs [6, 1] [9] (by decide)).1.trans (by decide),
   (DecodeRLE_appends_runs [6, 1] [9] (by decide)).2.trans (by decide)⟩

set_option maxRecDepth 100000 in
/-- C10: decoding the built-in `compressedData` of `onInitialization` gives exactly
`64 · 64 · 4 = 16384` bytes: its runs sum to `4096` pixels, the product of the width
and height passed to `Map::Map` and on to `glTexImage2D`. -/
theorem compressedData_decodes_to_full_raster :
    (Map_decodedData compressedData).length = mapWidth * mapHeight * 4
      ∧ mapWidth * mapHeight * 4 = 16384
      ∧ (compressedData.map (fun b => (b >>> 2) + 1)).sum = 4096
      ∧ mapWidth = 64 ∧ mapHeight = 64 := by
  have hs : (compressedData.map (fun b => (b >>> 2) + 1)).sum = 4096 := by decide
  refine ⟨?_, rfl, hs, rfl, rfl⟩
  unfold Map_decodedData
  rw [DecodeRLE_eq compressedData [] (by decide), List.nil_append, specRuns_length, hs]
  rfl

/-! ## Lemmas on the segment loop -/

theorem segmentLoop_flatten {α : Type} (jump : α → α → Bool) (rest : List α)
    (prev : Option α) (cur : List α) (segs : List (List α)) :
    (segmentLoop jump rest prev cur segs).flatten = segs.flatten ++ cur ++ rest := by
  induction rest generalizing prev cur segs with
  | nil =>
    cases cur with
    | nil => simp [segmentLoop]
    | cons a l => simp [segmentLoop]
  | cons c rest ih =>
    cases prev with
    | none => simp [segmentLoop, ih]
    | some p =>
      by_cases hj : jump p c = true
      · simp [segmentLoop, hj, ih]
      · simp [segmentLoop, hj, ih]

theorem segmentLoop_inv {α : Type} (jump : α → α → Bool) (rest : List α) (p : α)
    (cur : List α) (segs : List (List α))
    (hlast : cur.getLast? = some p)
    (hne : ∀ s ∈ segs, s ≠ [])
    (hin : ∀ s ∈ segs ++ [cur], s.Chain' (fun a b => jump a b = false))
    (hb : (segs ++ [cur]).Chain'
      (fun s t => ∃ a b, s.getLast? = some a ∧ t.head? = some b ∧ jump a b = true)) :
    segmentLoop jump rest (some p) cur segs ≠ [] ∧
    (∀ s ∈ segmentLoop jump rest (some p) cur segs, s ≠ []) ∧
    (∀ s ∈ segmentLoop jump rest (some p) cur segs, s.Chain' (fun a b => jump a b = false)) ∧
    (segmentLoop jump rest (some p) cur segs).Chain'
      (fun s t => ∃ a b, s.getLast? = some a ∧ t.head? = some b ∧ jump a b = true) := by
  have hcur : cur ≠ [] := by
    intro h
    simp [h] at hlast
  induction rest generalizing p cur segs with
  | nil =>
    have e : segmentLoop jump [] (some p) cur segs = segs ++ [cur] := by
      cases cur with
      | nil => exact absurd rfl hcur
      | cons a l => simp [segmentLoop]
    rw [e]
    refine ⟨by simp, ?_, hin, hb⟩
    intro s hs
    rcases List.mem_append.1 hs with h | h
    · exact hne s h
    · simp only [List.mem_singleton] at h
      rw [h]
      exact hcur
  | cons c rest ih =>
    by_cases hj : jump p c = true
    · have e : segmentLoop jump (c :: rest) (some p) cur segs
          = segmentLoop jump rest (some c) [c] (segs ++ [cur]) := by
        simp [segmentLoop, hj]
      rw [e]
      apply ih c [c] (segs ++ [cur]) (by simp)
      · intro s hs
        rcases List.mem_append.1 hs with h | h
        · exact hne s h
        · simp only [List.mem_singleton] at h
          rw [h]
          exact hcur
      · intro s hs
        rcases List.mem_append.1 hs with h | h
        · exact hin s h
        · simp only [List.mem_singleton] at h
          rw [h]
          exact List.chain'_singleton c
      · rw [List.chain'_append]
        refine ⟨hb, List.chain'_singleton _, ?_⟩
        intro x hx y hy
        simp only [List.getLast?_append, List.getLast?_singleton, Option.or,
          Option.mem_def, Option.some.injEq] at hx
        simp only [List.head?_cons, Option.mem_def, Option.some.injEq] at hy
        subst hx
        subst hy
        exact ⟨p, c, hlast, rfl, hj⟩
      · simp
    · have hj' : jump p c = false := by simpa using hj
      have e : segmentLoop jump (c :: rest) (some p) cur segs
          = segmentLoop jump rest (some c) (cur ++ [c]) segs := by
        simp [segmentLoop, hj']
      rw [e]
      apply ih c (cur ++ [c]) segs (by simp) hne
      · intro s hs
        rcases List.mem_append.1 hs with h | h
        · exact hin s (List.mem_append_left _ h)
        · simp only [List.mem_singleton] at h
          rw [h, List.chain'_append]
          refine ⟨hin cur (by simp), List.chain'_singleton _, ?_⟩
          intro x hx y hy
          simp only [Option.mem_def] at hx
          simp only [List.head?_cons, Option.mem_def, Option.some.injEq] at hy
          rw [hlast] at hx
          cases hx
          subst hy
          exact hj'
      · rw [List.chain'_append] at hb ⊢
        refine ⟨hb.1, List.chain'_singleton _, ?_⟩
        intro x hx y hy
        simp only [List.head?_cons, Option.mem_def, Option.some.injEq] at hy
        obtain ⟨a, b, ha, hb', hab⟩ := hb.2.2 x hx cur (by simp)
        refine ⟨a, b, ha, ?_, hab⟩
        rw [← hy, List.head?_append_of_ne_nil _ hcur]
        exact hb'
      · simp

theorem segmentLoop_start {α : Type} (jump : α → α → Bool) (c : α) (rest : List α) :
    segmentLoop jump (c :: rest) none [] [] ≠ [] ∧
    (∀ s ∈ segmentLoop jump (c :: rest) none [] [], s ≠ []) ∧
    (∀ s ∈ segmentLoop jump (c :: rest) none [] [],
      s.Chain' (fun a b => jump a b = false)) ∧
    (segmentLoop jump (c :: rest) none [] []).Chain'
      (fun s t => ∃ a b, s.getLast? = some a ∧ t.head? = some b ∧ jump a b = true) := by
  have e : segmentLoop jump (c :: rest) none [] [] = segmentLoop jump rest (some c) [c] [] := by
    simp [segmentLoop]
  rw [e]
  apply segmentLoop_inv jump rest c [c] [] (by simp) (by simp)
  · intro s hs
    simp only [List.nil_append, List.mem_singleton] at hs
    rw [hs]
    exact List.chain'_singleton c
  · simp

theorem pathSamples_cons (s e : vec2) (n : ℕ) :
    pathSamples s e n = pathClipCoord s e n 0 ::
      ((List.range n).map (fun i => pathClipCoord s e n (i + 1))) := by
  simp [pathSamples, List.range_succ_eq_map, Function.comp_def]

theorem clipJump_true (p q : vec2) : clipJump p q = true ↔ |q.x - p.x| > 0.5 := by
  simp [clipJump, threshold]

theorem clipJump_false (p q : vec2) : clipJump p q = false ↔ ¬ (|q.x - p.x| > 0.5) := by
  simp [clipJump, threshold]

theorem segmentLoop_two_segments {α : Type} (jump : α → α → Bool) (c : α) (rest : List α)
    (i : ℕ) (hi : i + 1 < (c :: rest).length)
    (hj : jump ((c :: rest).get ⟨i, Nat.lt_of_succ_lt hi⟩) ((c :: rest).get ⟨i + 1, hi⟩) = true) :
    2 ≤ (segmentLoop jump (c :: rest) none [] []).length := by
  obtain ⟨h1, _, h3, _⟩ := segmentLoop_start jump c rest
  have hf := segmentLoop_flatten jump (c :: rest) none [] []
  by_contra hlt
  match hr : segmentLoop jump (c :: rest) none [] [] with
  | [] => exact h1 hr
  | [seg] =>
    rw [hr] at hf h3
    simp only [List.flatten_cons, List.flatten_nil, List.append_nil, List.nil_append] at hf
    have hch := h3 seg (List.mem_singleton_self seg)
    rw [hf] at hch
    have := (List.chain'_iff_get.1 hch) i (by simp at hi ⊢; omega)
    rw [this] at hj
    exact Bool.noConfusion hj
  | a :: b :: l =>
    rw [hr] at hlt
    simp at hlt

/-! ## The segment theorems of `Path::SetPath` -/

/-- C1: for every start point, end point and `numPoints ≥ 0`, the segments produced by
`Path::SetPath` are the samples `i = 0, …, numPoints` in order, cut into non-empty
pieces; no segment holds two consecutive points whose clip-x differ by more than `0.5`,
and at every boundary between two segments the first point of the later segment
differs in clip-x from the last point of the earlier one by more than `0.5`: a new
segment starts exactly at the samples that jump by more than the threshold. -/
theorem SetPath_splits_exactly_at_jumps (startMercator endMercator : vec2) (numPoints : ℕ) :
    (SetPath startMercator endMercator numPoints).flatten
        = pathSamples startMercator endMercator numPoints
      ∧ (∀ seg ∈ SetPath startMercator endMercator numPoints, seg ≠ [])
      ∧ (∀ seg ∈ SetPath startMercator endMercator numPoints,
          seg.Chain' (fun p q => ¬ (|q.x - p.x| > 0.5)))
      ∧ (SetPath startMercator endMercator numPoints).Chain'
          (fun seg next => ∃ p q, seg.getLast? = some p ∧ next.head? = some q
            ∧ |q.x - p.x| > 0.5) := by
  refine ⟨?_, ?_⟩
  · simp [SetPath, segmentLoop_flatten]
  · unfold SetPath
    rw [pathSamples_cons]
    obtain ⟨_, h2, h3, h4⟩ := segmentLoop_start clipJump
      (pathClipCoord startMercator endMercator numPoints 0)
      ((List.range numPoints).map (fun i => pathClipCoord startMercator endMercator numPoints (i + 1)))
    refine ⟨h2, ?_, ?_⟩
    · intro seg hseg
      exact (h3 seg hseg).imp (fun {a b} hab => (clipJump_false a b).1 hab)
    · exact h4.imp (fun {a b} ⟨p, q, hp, hq, hpq⟩ => ⟨p, q, hp, hq, (clipJump_true p q).1 hpq⟩)

/-- C2: for every start point, end point and `numPoints ≥ 0`, `Path::SetPath` leaves
`pathSegments` a list of one or more segments, each a non-empty list of points. -/
theorem SetPath_one_or_more_nonempty_segments (startMercator endMercator : vec2)
    (numPoints : ℕ) :
    1 ≤ (SetPath startMercator endMercator numPoints).length
      ∧ ∀ seg ∈ SetPath startMercator endMercator numPoints, 1 ≤ seg.length := by
  unfold SetPath
  rw [pathSamples_cons]
  obtain ⟨h1, h2, _, _⟩ := segmentLoop_start clipJump
    (pathClipCoord startMercator endMercator numPoints 0)
    ((List.range numPoints).map (fun i => pathClipCoord startMercator endMercator numPoints (i + 1)))
  refine ⟨?_, ?_⟩
  · exact Nat.one_le_iff_ne_zero.2 (fun h => h1 (List.length_eq_zero.1 h))
  · intro seg hseg
    exact Nat.one_le_iff_ne_zero.2 (fun h => h2 seg hseg (List.length_eq_zero.1 h))

/-! ## Lemmas on the real functions -/

theorem atan2_polar (ρ θ : ℝ) (hρ : 0 < ρ) (h1 : -Real.pi < θ) (h2 : θ ≤ Real.pi) :
    atan2 (ρ * Real.sin θ) (ρ * Real.cos θ) = θ := by
  have e : (⟨ρ * Real.cos θ, ρ * Real.sin θ⟩ : ℂ)
      = (ρ : ℂ) * (Complex.cos θ + Complex.sin θ * Complex.I) := by
    apply Complex.ext
    · simp [← Complex.ofReal_cos, ← Complex.ofReal_sin]
    · simp [← Complex.ofReal_cos, ← Complex.ofReal_sin]
  unfold atan2
  rw [e]
  exact Complex.arg_mul_cos_add_sin_mul_I hρ ⟨h1, h2⟩

theorem dot_LonLatToCartesian_self (q : vec2) :
    dot (LonLatToCartesian q 1) (LonLatToCartesian q 1) = 1 := by
  simp only [dot, LonLatToCartesian]
  nlinarith [Real.sin_sq_add_cos_sq q.x, Real.sin_sq_add_cos_sq q.y]

theorem length_LonLatToCartesian (q : vec2) : length (LonLatToCartesian q 1) = 1 := by
  rw [length, dot_LonLatToCartesian_self, Real.sqrt_one]

theorem normalize_LonLatToCartesian (q : vec2) :
    normalize (LonLatToCartesian q 1) = LonLatToCartesian q 1 := by
  simp [normalize, length_LonLatToCartesian]

theorem pathEndLonLat_self (p : vec2) : pathEndLonLat p p = pathStartLonLat p := by
  have h := Real.pi_pos
  simp [pathEndLonLat, pathStartLonLat, M_PI, h.le, not_lt.2 h.le]

/-! ## Round trips and the known distance -/

/-- C5: for every longitude/latitude point `p` with `-π/2 < lat < π/2`,
`MercatorToLonLat (LonLatToMercator p) = p`, exactly, over the reals. -/
theorem MercatorToLonLat_LonLatToMercator (p : vec2)
    (h1 : -(Real.pi / 2) < p.y) (h2 : p.y < Real.pi / 2) :
    MercatorToLonLat (LonLatToMercator p) = p := by
  have hpos : 0 < Real.tan (Real.pi / 4 + p.y / 2) :=
    Real.tan_pos_of_pos_of_lt_pi_div_two (by linarith) (by linarith)
  apply vec2.ext
  · rfl
  · simp only [MercatorToLonLat, LonLatToMercator, M_PI]
    rw [Real.exp_log hpos, Real.arctan_tan (by linarith) (by linarith)]
    ring

/-- Witness of `MercatorToLonLat_LonLatToMercator` at longitude `1`, latitude `0`. -/
theorem MercatorToLonLat_LonLatToMercator_witness :
    (-(Real.pi / 2) < (0 : ℝ) ∧ (0 : ℝ) < Real.pi / 2) ∧
      MercatorToLonLat (LonLatToMercator ⟨1, 0⟩) = ⟨1, 0⟩ :=
  ⟨⟨by linarith [Real.pi_pos], by linarith [Real.pi_pos]⟩,
   MercatorToLonLat_LonLatToMercator ⟨1, 0⟩ (by simp; linarith [Real.pi_pos])
     (by simp; linarith [Real.pi_pos])⟩

/-- C6: for every unit vector `v` that is not at a pole (`x` and `y` not both `0`),
`LonLatToCartesian (CartesianToLonLat v) 1 = v`, exactly, over the reals. -/
theorem LonLatToCartesian_CartesianToLonLat (v : vec3) (hunit : length v = 1)
    (hpole : ¬ (v.x = 0 ∧ v.y = 0)) :
    LonLatToCartesian (CartesianToLonLat v) 1 = v := by
  have hd : v.x * v.x + v.y * v.y + v.z * v.z = 1 := by
    have h := hunit
    unfold length at h
    have h0 : Real.sqrt (dot v v) ^ 2 = 1 := by rw [h]; norm_num
    rw [Real.sq_sqrt] at h0
    · simpa [dot] using h0
    · by_contra hneg
      rw [Real.sqrt_eq_zero_of_nonpos (le_of_not_le hneg)] at h
      norm_num at h
  have hw : (⟨v.x, v.y⟩ : ℂ) ≠ 0 := by
    intro h
    apply hpole
    exact ⟨congrArg Complex.re h, congrArg Complex.im h⟩
  have habs : Complex.abs ⟨v.x, v.y⟩ = Real.sqrt (1 - v.z ^ 2) := by
    rw [Complex.abs_apply, Complex.normSq_mk]
    congr 1
    linarith
  have hapos : 0 < Complex.abs ⟨v.x, v.y⟩ := Complex.abs.pos hw
  have hz1 : -1 ≤ v.z := by nlinarith [mul_self_nonneg v.x, mul_self_nonneg v.y]
  have hz2 : v.z ≤ 1 := by nlinarith [mul_self_nonneg v.x, mul_self_nonneg v.y]
  have hc := Complex.cos_arg hw
  have hs := Complex.sin_arg (⟨v.x, v.y⟩ : ℂ)
  simp only at hc hs
  apply vec3.ext
  · simp only [LonLatToCartesian, CartesianToLonLat, atan2, hunit, div_one, one_mul]
    rw [Real.cos_arcsin, hc, ← habs]
    field_simp
  · simp only [LonLatToCartesian, CartesianToLonLat, atan2, hunit, div_one, one_mul]
    rw [Real.cos_arcsin, hs, ← habs]
    field_simp
  · simp only [LonLatToCartesian, CartesianToLonLat, hunit, div_one, one_mul]
    exact Real.sin_arcsin hz1 hz2

/-- Witness of `LonLatToCartesian_CartesianToLonLat` at the unit vector `(1, 0, 0)`. -/
theorem LonLatToCartesian_CartesianToLonLat_witness :
    length ⟨1, 0, 0⟩ = 1 ∧ ¬ ((1 : ℝ) = 0 ∧ (0 : ℝ) = 0) ∧
      LonLatToCartesian (CartesianToLonLat ⟨1, 0, 0⟩) 1 = ⟨1, 0, 0⟩ :=
  ⟨by simp [length, dot], by simp,
   LonLatToCartesian_CartesianToLonLat ⟨1, 0, 0⟩ (by simp [length, dot]) (by simp)⟩

/-- C7: `CalculateDistance ((0, 0), (0, π/2), 6371)` equals `6371 · π / 2`, the quarter
meridian, which is within `0.1` km of `10007.5`. -/
theorem CalculateDistance_quarter_meridian :
    CalculateDistance ⟨0, 0⟩ ⟨0, Real.pi / 2⟩ 6371 = 6371 * Real.pi / 2
      ∧ |CalculateDistance ⟨0, 0⟩ ⟨0, Real.pi / 2⟩ 6371 - 10007.5| < 0.1 := by
  have hs : 0 ≤ Real.sin (Real.pi / 4) := by
    rw [Real.sin_pi_div_four]; positivity
  have hc : 0 ≤ Real.cos (Real.pi / 4) := by
    rw [Real.cos_pi_div_four]; positivity
  have ha : Real.sin ((Real.pi / 2 - 0) / 2) * Real.sin ((Real.pi / 2 - 0) / 2) +
      Real.cos 0 * Real.cos (Real.pi / 2) * Real.sin ((0 - 0) / 2) * Real.sin ((0 - 0) / 2)
      = Real.sin (Real.pi / 4) * Real.sin (Real.pi / 4) := by
    have : (Real.pi / 2 - 0) / 2 = Real.pi / 4 := by ring
    rw [this]
    simp
  have h1a : 1 - Real.sin (Real.pi / 4) * Real.sin (Real.pi / 4)
      = Real.cos (Real.pi / 4) * Real.cos (Real.pi / 4) := by
    nlinarith [Real.sin_sq_add_cos_sq (Real.pi / 4)]
  have hat : atan2 (Real.sin (Real.pi / 4)) (Real.cos (Real.pi / 4)) = Real.pi / 4 := by
    have := atan2_polar 1 (Real.pi / 4) one_pos (by linarith [Real.pi_pos])
      (by linarith [Real.pi_pos])
    simpa using this
  have e : CalculateDistance ⟨0, 0⟩ ⟨0, Real.pi / 2⟩ 6371 = 6371 * Real.pi / 2 := by
    simp only [CalculateDistance]
    rw [ha, h1a, Real.sqrt_mul_self hs, Real.sqrt_mul_self hc, hat]
    ring
  refine ⟨e, ?_⟩
  rw [e, abs_lt]
  constructor
  · nlinarith [Real.pi_gt_d6]
  · nlinarith [Real.pi_lt_d6]

/-! ## Coincident end points -/

/-- C4 (the code at coincident end points): when the start and end Mercator points
coincide, the local `angle` of `Path::SetPath` is `0` and the divisor `sin(angle)` of
both slerp weights `sin((1 - t) * angle) / sin(angle)` and `sin(t * angle) / sin(angle)`
is `0`, for every sample: the division is by zero, and the source has no guard. -/
theorem SetPath_coincident_divisor_zero (p : vec2) :
    pathAngle p p = 0 ∧ Real.sin (pathAngle p p) = 0 := by
  have h : pathAngle p p = 0 := by
    simp only [pathAngle, pathStartCartesian, pathEndCartesian, pathEndLonLat_self,
      normalize_LonLatToCartesian, dot_LonLatToCartesian_self]
    norm_num
  exact ⟨h, by rw [h, Real.sin_zero]⟩

/-! ## The fragment shader -/

theorem fragSurfaceNormal_centre :
    fragSurfaceNormal ⟨1 / 2, 1 / 2⟩
      = ⟨Real.cos (-(1 / 200000000000)), 0, Real.sin (-(1 / 200000000000))⟩ := by
  have h1 : (1 / 2 : ℝ) * 2.0 * 3.14159265359 - 3.14159265359 = 0 := by norm_num
  have h2 : (1.57079632679 : ℝ) - 1 / 2 * 3.14159265359 = -(1 / 200000000000) := by norm_num
  have hl : length ⟨Real.cos (-(1 / 200000000000)), 0, Real.sin (-(1 / 200000000000))⟩ = 1 := by
    simp only [length, dot]
    rw [show Real.cos (-(1 / 200000000000)) * Real.cos (-(1 / 200000000000)) + 0 * 0
        + Real.sin (-(1 / 200000000000)) * Real.sin (-(1 / 200000000000)) = 1 by
      nlinarith [Real.sin_sq_add_cos_sq (-(1 / 200000000000))]]
    exact Real.sqrt_one
  unfold fragSurfaceNormal
  simp only [h1, h2, Real.cos_zero, Real.sin_zero, mul_one, mul_zero]
  simp only [normalize, hl, div_one]

theorem CalculateSunDirection_zero :
    CalculateSunDirection 0
      = ⟨Real.cos (23 * (Real.pi / 180)), 0, Real.sin (23 * (Real.pi / 180))⟩ := by
  have hl : length ⟨Real.cos (23 * (Real.pi / 180)), 0, Real.sin (23 * (Real.pi / 180))⟩ = 1 := by
    simp only [length, dot]
    rw [show Real.cos (23 * (Real.pi / 180)) * Real.cos (23 * (Real.pi / 180)) + 0 * 0
        + Real.sin (23 * (Real.pi / 180)) * Real.sin (23 * (Real.pi / 180)) = 1 by
      nlinarith [Real.sin_sq_add_cos_sq (23 * (Real.pi / 180))]]
    exact Real.sqrt_one
  unfold CalculateSunDirection
  simp only [RadFromDeg, M_PI, Int.cast_zero, zero_mul, Real.cos_zero, Real.sin_zero, mul_one,
    mul_zero]
  simp only [normalize, hl, div_one]

/-- The map branch of the fragment shader, for every input: the texel is output
unchanged when the scalar product of the surface normal and the sun direction is
negative, and its RGB is multiplied by `0.5` (alpha kept) otherwise. -/
theorem fragMain_map_shading (baseColor : vec4) (texCoord : vec2)
    (color sunDirection : vec3) :
    fragMain true true baseColor texCoord color sunDirection
      = if dot (fragSurfaceNormal texCoord) sunDirection < 0 then baseColor
        else ⟨baseColor.x * 0.5, baseColor.y * 0.5, baseColor.z * 0.5, baseColor.w⟩ := by
  have h0 : (0.0 : ℝ) = 0 := by norm_num
  by_cases h : dot (fragSurfaceNormal texCoord) sunDirection < 0
  · simp [fragMain, h0, h]
  · simp [fragMain, h0, h]

/-- C9 (the code at the start-up sun direction): at the texel `(u, v) = (1/2, 1/2)` with
the sun direction of hour `0`, the scalar product of the shader's surface normal and
the sun direction is positive, so `IsDaytime` is true, yet the shader multiplies the
RGB of the white texel `(1, 1, 1, 1)` by `0.5` instead of leaving it unchanged. -/
theorem fragMain_darkens_where_IsDaytime :
    0 < dot (fragSurfaceNormal ⟨1 / 2, 1 / 2⟩) (CalculateSunDirection 0)
      ∧ IsDaytime (fragSurfaceNormal ⟨1 / 2, 1 / 2⟩) (CalculateSunDirection 0) = true
      ∧ fragMain true true ⟨1, 1, 1, 1⟩ ⟨1 / 2, 1 / 2⟩ ⟨0, 0, 0⟩ (CalculateSunDirection 0)
          = ⟨1 / 2, 1 / 2, 1 / 2, 1⟩
      ∧ fragMain true true ⟨1, 1, 1, 1⟩ ⟨1 / 2, 1 / 2⟩ ⟨0, 0, 0⟩ (CalculateSunDirection 0)
          ≠ ⟨1, 1, 1, 1⟩ := by
  have hpos : 0 < dot (fragSurfaceNormal ⟨1 / 2, 1 / 2⟩) (CalculateSunDirection 0) := by
    rw [fragSurfaceNormal_centre, CalculateSunDirection_zero]
    simp only [dot, mul_zero, add_zero]
    rw [← Real.cos_sub]
    apply Real.cos_pos_of_mem_Ioo
    constructor
    · linarith [Real.pi_gt_three, Real.pi_le_four]
    · linarith [Real.pi_gt_three, Real.pi_le_four]
  have hout : fragMain true true ⟨1, 1, 1, 1⟩ ⟨1 / 2, 1 / 2⟩ ⟨0, 0, 0⟩ (CalculateSunDirection 0)
      = ⟨1 / 2, 1 / 2, 1 / 2, 1⟩ := by
    rw [fragMain_map_shading, if_neg (not_lt.2 hpos.le)]
    norm_num
  refine ⟨hpos, by simpa [IsDaytime] using hpos, hout, ?_⟩
  rw [hout]
  intro h
  have := congrArg vec4.x h
  norm_num at this

/-! ## The antimeridian in exact arithmetic: longitudes of the samples -/

theorem cos_pathLat_pos (y : ℝ) : 0 < Real.cos (2 * Real.arctan (Real.exp y) - M_PI / 2) := by
  have h1 : 0 < Real.arctan (Real.exp y) := by
    have := Real.arctan_strictMono (Real.exp_pos y)
    rwa [Real.arctan_zero] at this
  have h2 := Real.arctan_lt_pi_div_two (Real.exp y)
  apply Real.cos_pos_of_mem_Ioo
  constructor <;> simp only [M_PI] <;> linarith

theorem dot_cartesian (p q : vec2) :
    dot (LonLatToCartesian p 1) (LonLatToCartesian q 1)
      = Real.cos p.y * Real.cos q.y * Real.cos (q.x - p.x) + Real.sin p.y * Real.sin q.y := by
  simp only [dot, LonLatToCartesian, Real.cos_sub]
  ring

theorem dot_cartesian_bounds (p q : vec2) (hp : 0 < Real.cos p.y) (hq : 0 < Real.cos q.y)
    (hs : Real.sin (q.x - p.x) ≠ 0) :
    -1 < dot (LonLatToCartesian p 1) (LonLatToCartesian q 1)
      ∧ dot (LonLatToCartesian p 1) (LonLatToCartesian q 1) < 1 := by
  rw [dot_cartesian]
  have h1 := Real.sin_sq_add_cos_sq p.y
  have h2 := Real.sin_sq_add_cos_sq q.y
  have h3 := Real.sin_sq_add_cos_sq (q.x - p.x)
  have hs2 : 0 < Real.sin (q.x - p.x) ^ 2 := by positivity
  have hc1 : Real.cos (q.x - p.x) < 1 := by nlinarith
  have hc2 : -1 < Real.cos (q.x - p.x) := by nlinarith
  have hpq : 0 < Real.cos p.y * Real.cos q.y := mul_pos hp hq
  constructor
  · nlinarith [sq_nonneg (Real.cos p.y - Real.cos q.y), sq_nonneg (Real.sin p.y + Real.sin q.y)]
  · nlinarith [sq_nonneg (Real.cos p.y - Real.cos q.y), sq_nonneg (Real.sin p.y - Real.sin q.y)]

/-- The longitude of a non-negative combination of two points of the unit sphere. -/
theorem combination_longitude (p q : vec2) (A B : ℝ) (hp : 0 < Real.cos p.y)
    (hq : 0 < Real.cos q.y) (hs : Real.sin (q.x - p.x) ≠ 0) (hA : 0 ≤ A) (hB : 0 ≤ B)
    (hAB : 0 < A + B) :
    ∃ L ρ : ℝ,
      (CartesianToLonLat (normalize (add (smul A (LonLatToCartesian p 1))
        (smul B (LonLatToCartesian q 1))))).x = L
      ∧ -Real.pi < L ∧ L ≤ Real.pi ∧ 0 < ρ
      ∧ ρ * Real.sin (L - p.x) = B * Real.cos q.y * Real.sin (q.x - p.x)
      ∧ ρ * Real.sin (q.x - L) = A * Real.cos p.y * Real.sin (q.x - p.x) := by
  set w := add (smul A (LonLatToCartesian p 1)) (smul B (LonLatToCartesian q 1)) with hw
  have hwx : w.x = A * Real.cos p.y * Real.cos p.x + B * Real.cos q.y * Real.cos q.x := by
    simp [hw, add, smul, LonLatToCartesian]; ring
  have hwy : w.y = A * Real.cos p.y * Real.sin p.x + B * Real.cos q.y * Real.sin q.x := by
    simp [hw, add, smul, LonLatToCartesian]; ring
  have c1 : w.y * Real.cos p.x - w.x * Real.sin p.x
      = B * Real.cos q.y * Real.sin (q.x - p.x) := by
    rw [hwx, hwy, Real.sin_sub]
    nlinarith [Real.sin_sq_add_cos_sq p.x]
  have c2 : w.x * Real.sin q.x - w.y * Real.cos q.x
      = A * Real.cos p.y * Real.sin (q.x - p.x) := by
    rw [hwx, hwy, Real.sin_sub]
    nlinarith [Real.sin_sq_add_cos_sq q.x]
  have hxy : ¬ (w.x = 0 ∧ w.y = 0) := by
    rintro ⟨h1, h2⟩
    rw [h1, h2] at c1 c2
    have hsum : (A * Real.cos p.y + B * Real.cos q.y) * Real.sin (q.x - p.x) = 0 := by
      linarith
    have hpos : 0 < A * Real.cos p.y + B * Real.cos q.y := by
      rcases hA.lt_or_eq with h | h
      · have := mul_pos h hp
        have := mul_nonneg hB hq.le
        linarith
      · have hB' : 0 < B := by linarith
        have := mul_pos hB' hq
        have := mul_nonneg hA hp.le
        linarith
    rcases mul_eq_zero.1 hsum with h | h
    · linarith
    · exact hs h
  have hlen : 0 < length w := by
    unfold length
    apply Real.sqrt_pos.2
    unfold dot
    by_contra hneg
    apply hxy
    have h0 : w.x * w.x + w.y * w.y + w.z * w.z ≤ 0 := le_of_not_lt hneg
    constructor <;> nlinarith [mul_self_nonneg w.x, mul_self_nonneg w.y, mul_self_nonneg w.z]
  set z : ℂ := ⟨w.x / length w, w.y / length w⟩ with hz
  have hz0 : z ≠ 0 := by
    intro h
    apply hxy
    have hre := congrArg Complex.re h
    have him := congrArg Complex.im h
    simp only [hz, Complex.zero_re, Complex.zero_im] at hre him
    constructor
    · rcases div_eq_zero_iff.1 hre with h | h
      · exact h
      · exact absurd h hlen.ne'
    · rcases div_eq_zero_iff.1 him with h | h
      · exact h
      · exact absurd h hlen.ne'
  have habs : 0 < Complex.abs z := Complex.abs.pos hz0
  have hc := Complex.cos_arg hz0
  have hsn := Complex.sin_arg z
  have hre : w.x = Complex.abs z * length w * Real.cos (Complex.arg z) := by
    rw [hc]
    simp only [hz]
    field_simp
    ring
  have him : w.y = Complex.abs z * length w * Real.sin (Complex.arg z) := by
    rw [hsn]
    simp only [hz]
    field_simp
    ring
  refine ⟨Complex.arg z, Complex.abs z * length w, ?_, Complex.neg_pi_lt_arg z,
    Complex.arg_le_pi z, mul_pos habs hlen, ?_, ?_⟩
  · simp only [CartesianToLonLat, normalize, atan2, hz]
  · rw [← c1, Real.sin_sub]
    linear_combination (-Real.cos p.x) * him + (Real.sin p.x) * hre
  · rw [← c2, Real.sin_sub]
    linear_combination (-Real.sin q.x) * hre + (Real.cos q.x) * him

theorem pathEndLonLat_y (s e : vec2) :
    (pathEndLonLat s e).y = 2 * Real.arctan (Real.exp e.y) - M_PI / 2 := by
  unfold pathEndLonLat
  simp only
  split_ifs <;> rfl

theorem pathAngle_bounds (s e : vec2)
    (hs : Real.sin ((pathEndLonLat s e).x - s.x) ≠ 0) :
    0 < pathAngle s e ∧ pathAngle s e < Real.pi := by
  have hp : 0 < Real.cos (pathStartLonLat s).y := cos_pathLat_pos s.y
  have hq : 0 < Real.cos (pathEndLonLat s e).y := by
    rw [pathEndLonLat_y]
    exact cos_pathLat_pos e.y
  obtain ⟨h1, h2⟩ := dot_cartesian_bounds (pathStartLonLat s) (pathEndLonLat s e) hp hq hs
  simp only [pathAngle, pathStartCartesian, pathEndCartesian, normalize_LonLatToCartesian]
  rw [max_eq_left h1.le, min_eq_left h2.le]
  refine ⟨Real.arccos_pos.2 h2, lt_of_le_of_ne (Real.arccos_le_pi _) ?_⟩
  intro h
  exact absurd (Real.arccos_eq_pi.1 h) (not_le.2 h1)

theorem pathClipCoord_longitude (s e : vec2) (n i : ℕ) (hn : 0 < n) (hi : i ≤ n)
    (hs : Real.sin ((pathEndLonLat s e).x - s.x) ≠ 0) :
    ∃ L ρ a b : ℝ,
      (pathClipCoord s e n i).x = L / Real.pi
      ∧ -Real.pi < L ∧ L ≤ Real.pi ∧ 0 < ρ ∧ 0 ≤ a ∧ 0 ≤ b ∧ 0 < a + b
      ∧ (i = 0 → b = 0) ∧ (i = n → a = 0)
      ∧ ρ * Real.sin (L - s.x) = b * Real.sin ((pathEndLonLat s e).x - s.x)
      ∧ ρ * Real.sin ((pathEndLonLat s e).x - L)
          = a * Real.sin ((pathEndLonLat s e).x - s.x) := by
  have hp : 0 < Real.cos (pathStartLonLat s).y := cos_pathLat_pos s.y
  have hq : 0 < Real.cos (pathEndLonLat s e).y := by
    rw [pathEndLonLat_y]
    exact cos_pathLat_pos e.y
  obtain ⟨hθ0, hθπ⟩ := pathAngle_bounds s e hs
  have hsin : 0 < Real.sin (pathAngle s e) := Real.sin_pos_of_pos_of_lt_pi hθ0 hθπ
  have hn' : (0 : ℝ) < (n : ℝ) := by exact_mod_cast hn
  have ht0 : (0 : ℝ) ≤ (i : ℝ) / (n : ℝ) := by positivity
  have ht1 : (i : ℝ) / (n : ℝ) ≤ 1 := by
    rw [div_le_one hn']
    exact_mod_cast hi
  set t : ℝ := (i : ℝ) / (n : ℝ) with ht
  set θ := pathAngle s e with hθ
  have hA : 0 ≤ Real.sin ((1 - t) * θ) / Real.sin θ := by
    apply div_nonneg _ hsin.le
    apply Real.sin_nonneg_of_nonneg_of_le_pi
    · exact mul_nonneg (by linarith) hθ0.le
    · nlinarith
  have hB : 0 ≤ Real.sin (t * θ) / Real.sin θ := by
    apply div_nonneg _ hsin.le
    apply Real.sin_nonneg_of_nonneg_of_le_pi
    · exact mul_nonneg ht0 hθ0.le
    · nlinarith
  have hAB : 0 < Real.sin ((1 - t) * θ) / Real.sin θ + Real.sin (t * θ) / Real.sin θ := by
    rcases ht0.lt_or_eq with h | h
    · have : 0 < Real.sin (t * θ) / Real.sin θ := by
        apply div_pos _ hsin
        apply Real.sin_pos_of_pos_of_lt_pi
        · exact mul_pos h hθ0
        · nlinarith
      linarith
    · have : Real.sin ((1 - t) * θ) / Real.sin θ = 1 := by
        rw [← h]
        simp only [sub_zero, one_mul]
        exact div_self hsin.ne'
      linarith
  obtain ⟨L, ρ, hL, hL1, hL2, hρ, e1, e2⟩ := combination_longitude (pathStartLonLat s)
    (pathEndLonLat s e) _ _ hp hq hs hA hB hAB
  refine ⟨L, ρ, Real.sin ((1 - t) * θ) / Real.sin θ * Real.cos (pathStartLonLat s).y,
    Real.sin (t * θ) / Real.sin θ * Real.cos (pathEndLonLat s e).y, ?_, hL1, hL2, hρ,
    mul_nonneg hA hp.le, mul_nonneg hB hq.le, ?_, ?_, ?_, e1, e2⟩
  · simp only [pathClipCoord, pathStartCartesian, pathEndCartesian]
    rw [← ht, ← hθ, hL]
    have hn1 : ¬ (L > M_PI) := not_lt.2 hL2
    have hn2 : ¬ (L < -M_PI) := not_lt.2 hL1.le
    rw [if_neg hn1, if_neg hn2]
    simp only [MercatorToClip, LonLatToMercator, hL, M_PI]
  · rcases hA.lt_or_eq with h | h
    · have := mul_pos h hp
      have := mul_nonneg hB hq.le
      linarith
    · have hB' : 0 < Real.sin (t * θ) / Real.sin θ := by linarith
      have := mul_pos hB' hq
      have := mul_nonneg hA hp.le
      linarith
  · intro h0
    have : t = 0 := by simp [ht, h0]
    simp [this]
  · intro h1
    have : t = 1 := by
      rw [ht, h1]
      exact div_self hn'.ne'
    simp [this]

theorem sin_nonneg_window (x : ℝ) (h2 : x < 0) (h : 0 ≤ Real.sin x) :
    x ≤ -Real.pi := by
  by_contra hc
  have := Real.sin_neg_of_neg_of_neg_pi_lt h2 (not_le.1 hc)
  linarith

theorem sin_nonpos_window (x : ℝ) (h1 : 0 < x) (h : Real.sin x ≤ 0) :
    Real.pi ≤ x := by
  by_contra hc
  have := Real.sin_pos_of_pos_of_lt_pi h1 (not_le.1 hc)
  linarith

theorem sin_pos_far_window (x : ℝ) (h1 : -(2 * Real.pi) < x) (h2 : x < -Real.pi) :
    0 < Real.sin x := by
  have := Real.sin_pos_of_pos_of_lt_pi (x := x + 2 * Real.pi) (by linarith) (by linarith)
  rwa [Real.sin_add_two_pi] at this

theorem sin_neg_far_window (x : ℝ) (h1 : Real.pi < x) (h2 : x < 2 * Real.pi) :
    Real.sin x < 0 := by
  have := Real.sin_neg_of_neg_of_neg_pi_lt (x := x - 2 * Real.pi) (by linarith) (by linarith)
  rwa [Real.sin_sub_two_pi] at this

/-- Discrete intermediate value: a sequence that starts in `P`, ends in `Q`, and is
always in one of the two has a step from `P` to `Q`. -/
theorem exists_step (P Q : ℕ → Prop) (n : ℕ) (h : ∀ i, i ≤ n → P i ∨ Q i)
    (h0 : P 0) (hn : Q n) (hPQ : ∀ i, i ≤ n → P i → Q i → False) :
    ∃ i, i < n ∧ P i ∧ Q (i + 1) := by
  by_contra hc
  have hall : ∀ i, i ≤ n → P i := by
    intro i
    induction i with
    | zero => intro _; exact h0
    | succ k ih =>
      intro hk
      rcases h (k + 1) hk with hp | hq
      · exact hp
      · exact absurd ⟨k, hk, ih (Nat.le_of_succ_le hk), hq⟩ hc
  exact hPQ n le_rfl (hall n le_rfl) hn

/-! ## The antimeridian in exact arithmetic: at least two segments -/

theorem pathEndLonLat_x_of_lt (s e : vec2) (h : e.x - s.x < -Real.pi) :
    (pathEndLonLat s e).x = e.x + 2 * Real.pi := by
  have hpi := Real.pi_pos
  unfold pathEndLonLat
  simp only [pathStartLonLat, M_PI]
  rw [if_neg (by linarith), if_pos h]

theorem pathEndLonLat_x_of_gt (s e : vec2) (h : Real.pi < e.x - s.x) :
    (pathEndLonLat s e).x = e.x - 2 * Real.pi := by
  unfold pathEndLonLat
  simp only [pathStartLonLat, M_PI]
  rw [if_pos h]

theorem pathSamples_get (s e : vec2) (n i : ℕ) (h : i < (pathSamples s e n).length) :
    (pathSamples s e n).get ⟨i, h⟩ = pathClipCoord s e n i := by
  simp [pathSamples]

theorem pathSamples_length (s e : vec2) (n : ℕ) : (pathSamples s e n).length = n + 1 := by
  simp [pathSamples]

theorem SetPath_two_of_jump (s e : vec2) (n i : ℕ) (hi : i < n)
    (hj : |(pathClipCoord s e n (i + 1)).x - (pathClipCoord s e n i).x| > 0.5) :
    2 ≤ (SetPath s e n).length := by
  have hlen := pathSamples_length s e n
  have hi' : i + 1 < (pathSamples s e n).length := by omega
  have hj' : clipJump ((pathSamples s e n).get ⟨i, Nat.lt_of_succ_lt hi'⟩)
      ((pathSamples s e n).get ⟨i + 1, hi'⟩) = true := by
    rw [pathSamples_get, pathSamples_get]
    exact (clipJump_true _ _).2 hj
  unfold SetPath
  revert hi' hj'
  cases pathSamples s e n with
  | nil => intro hi'; simp at hi'
  | cons c rest =>
    intro hi' hj'
    exact segmentLoop_two_segments clipJump c rest i hi' hj'

theorem sample_of_lt (s e : vec2) (n i : ℕ) (hn : 0 < n) (hi : i ≤ n)
    (hs2 : s.x ≤ Real.pi) (he1 : -Real.pi < e.x) (hd : e.x - s.x < -Real.pi) :
    (s.x / Real.pi ≤ (pathClipCoord s e n i).x ∨ (pathClipCoord s e n i).x ≤ e.x / Real.pi)
      ∧ (i = 0 → s.x / Real.pi ≤ (pathClipCoord s e n i).x)
      ∧ (i = n → (pathClipCoord s e n i).x ≤ e.x / Real.pi) := by
  have hpi := Real.pi_pos
  have hx := pathEndLonLat_x_of_lt s e hd
  have hΔ : 0 < Real.sin ((pathEndLonLat s e).x - s.x) := by
    rw [hx]
    exact Real.sin_pos_of_pos_of_lt_pi (by linarith) (by linarith)
  obtain ⟨L, ρ, a, b, hc, hL1, hL2, hρ, ha, hb, hab, hb0, ha0, e1, e2⟩ :=
    pathClipCoord_longitude s e n i hn hi hΔ.ne'
  have e2' : ρ * Real.sin (e.x - L) = a * Real.sin ((pathEndLonLat s e).x - s.x) := by
    rw [← e2, hx, show e.x + 2 * Real.pi - L = e.x - L + 2 * Real.pi by ring,
      Real.sin_add_two_pi]
  have h1 : 0 ≤ Real.sin (L - s.x) := by
    have : 0 ≤ ρ * Real.sin (L - s.x) := by rw [e1]; exact mul_nonneg hb hΔ.le
    exact (mul_nonneg_iff_of_pos_left hρ).1 this
  have h2 : 0 ≤ Real.sin (e.x - L) := by
    have : 0 ≤ ρ * Real.sin (e.x - L) := by rw [e2']; exact mul_nonneg ha hΔ.le
    exact (mul_nonneg_iff_of_pos_left hρ).1 this
  have hdisj : s.x ≤ L ∨ L ≤ e.x := by
    by_contra hcon
    push_neg at hcon
    have := sin_nonneg_window (L - s.x) (by linarith) h1
    have := sin_nonneg_window (e.x - L) (by linarith) h2
    linarith
  rw [hc]
  refine ⟨?_, ?_, ?_⟩
  · rcases hdisj with h | h
    · exact Or.inl (div_le_div_of_nonneg_right h hpi.le)
    · exact Or.inr (div_le_div_of_nonneg_right h hpi.le)
  · intro h0
    apply div_le_div_of_nonneg_right _ hpi.le
    by_contra hcon
    have hLe : L ≤ e.x := by
      rcases hdisj with h | h
      · exact absurd h hcon
      · exact h
    have hz : Real.sin (L - s.x) = 0 := by
      have : ρ * Real.sin (L - s.x) = 0 := by rw [e1, hb0 h0, zero_mul]
      rcases mul_eq_zero.1 this with h | h
      · exact absurd h hρ.ne'
      · exact h
    have := sin_pos_far_window (L - s.x) (by linarith) (by linarith)
    linarith
  · intro hlast
    apply div_le_div_of_nonneg_right _ hpi.le
    by_contra hcon
    have hsL : s.x ≤ L := by
      rcases hdisj with h | h
      · exact h
      · exact absurd h hcon
    have hz : Real.sin (e.x - L) = 0 := by
      have : ρ * Real.sin (e.x - L) = 0 := by rw [e2', ha0 hlast, zero_mul]
      rcases mul_eq_zero.1 this with h | h
      · exact absurd h hρ.ne'
      · exact h
    have := sin_pos_far_window (e.x - L) (by linarith) (by linarith)
    linarith

theorem sample_of_gt (s e : vec2) (n i : ℕ) (hn : 0 < n) (hi : i ≤ n)
    (hs1 : -Real.pi < s.x) (he2 : e.x ≤ Real.pi) (hd : Real.pi < e.x - s.x) :
    ((pathClipCoord s e n i).x ≤ s.x / Real.pi ∨ e.x / Real.pi ≤ (pathClipCoord s e n i).x)
      ∧ (i = 0 → (pathClipCoord s e n i).x ≤ s.x / Real.pi)
      ∧ (i = n → e.x / Real.pi ≤ (pathClipCoord s e n i).x) := by
  have hpi := Real.pi_pos
  have hx := pathEndLonLat_x_of_gt s e hd
  have hΔ : Real.sin ((pathEndLonLat s e).x - s.x) < 0 := by
    rw [hx]
    exact Real.sin_neg_of_neg_of_neg_pi_lt (by linarith) (by linarith)
  obtain ⟨L, ρ, a, b, hc, hL1, hL2, hρ, ha, hb, hab, hb0, ha0, e1, e2⟩ :=
    pathClipCoord_longitude s e n i hn hi hΔ.ne
  have e2' : ρ * Real.sin (e.x - L) = a * Real.sin ((pathEndLonLat s e).x - s.x) := by
    rw [← e2, hx, show e.x - 2 * Real.pi - L = e.x - L - 2 * Real.pi by ring,
      Real.sin_sub_two_pi]
  have h1 : Real.sin (L - s.x) ≤ 0 := by
    have : ρ * Real.sin (L - s.x) ≤ 0 := by
      rw [e1]; exact mul_nonpos_of_nonneg_of_nonpos hb hΔ.le
    by_contra hcon
    have := mul_pos hρ (not_le.1 hcon)
    linarith
  have h2 : Real.sin (e.x - L) ≤ 0 := by
    have : ρ * Real.sin (e.x - L) ≤ 0 := by
      rw [e2']; exact mul_nonpos_of_nonneg_of_nonpos ha hΔ.le
    by_contra hcon
    have := mul_pos hρ (not_le.1 hcon)
    linarith
  have hdisj : L ≤ s.x ∨ e.x ≤ L := by
    by_contra hcon
    push_neg at hcon
    have := sin_nonpos_window (L - s.x) (by linarith) h1
    have := sin_nonpos_window (e.x - L) (by linarith) h2
    linarith
  rw [hc]
  refine ⟨?_, ?_, ?_⟩
  · rcases hdisj with h | h
    · exact Or.inl (div_le_div_of_nonneg_right h hpi.le)
    · exact Or.inr (div_le_div_of_nonneg_right h hpi.le)
  · intro h0
    apply div_le_div_of_nonneg_right _ hpi.le
    by_contra hcon
    have heL : e.x ≤ L := by
      rcases hdisj with h | h
      · exact absurd h hcon
      · exact h
    have hz : Real.sin (L - s.x) = 0 := by
      have : ρ * Real.sin (L - s.x) = 0 := by rw [e1, hb0 h0, zero_mul]
      rcases mul_eq_zero.1 this with h | h
      · exact absurd h hρ.ne'
      · exact h
    have := sin_neg_far_window (L - s.x) (by linarith) (by linarith)
    linarith
  · intro hlast
    apply div_le_div_of_nonneg_right _ hpi.le
    by_contra hcon
    have hLs : L ≤ s.x := by
      rcases hdisj with h | h
      · exact h
      · exact absurd h hcon
    have hz : Real.sin (e.x - L) = 0 := by
      have : ρ * Real.sin (e.x - L) = 0 := by rw [e2', ha0 hlast, zero_mul]
      rcases mul_eq_zero.1 this with h | h
      · exact absurd h hρ.ne'
      · exact h
    have := sin_neg_far_window (e.x - L) (by linarith) (by linarith)
    linarith

theorem SetPath_two_of_lt (s e : vec2) (n : ℕ) (hn : 0 < n)
    (hs2 : s.x ≤ Real.pi) (he1 : -Real.pi < e.x) (hd : e.x - s.x < -Real.pi) :
    2 ≤ (SetPath s e n).length := by
  have hpi := Real.pi_pos
  have hgap : 1 < s.x / Real.pi - e.x / Real.pi := by
    rw [← sub_div, lt_div_iff₀ hpi]
    linarith
  obtain ⟨i, hi, hP, hQ⟩ := exists_step
    (fun i => s.x / Real.pi ≤ (pathClipCoord s e n i).x)
    (fun i => (pathClipCoord s e n i).x ≤ e.x / Real.pi) n
    (fun i hi => (sample_of_lt s e n i hn hi hs2 he1 hd).1)
    ((sample_of_lt s e n 0 hn (Nat.zero_le n) hs2 he1 hd).2.1 rfl)
    ((sample_of_lt s e n n hn le_rfl hs2 he1 hd).2.2 rfl)
    (fun i _ hP hQ => by
      have hP' : s.x / Real.pi ≤ (pathClipCoord s e n i).x := hP
      have hQ' : (pathClipCoord s e n i).x ≤ e.x / Real.pi := hQ
      linarith)
  apply SetPath_two_of_jump s e n i hi
  have hP' : s.x / Real.pi ≤ (pathClipCoord s e n i).x := hP
  have hQ' : (pathClipCoord s e n (i + 1)).x ≤ e.x / Real.pi := hQ
  rw [abs_sub_comm, gt_iff_lt]
  refine lt_of_lt_of_le ?_ (le_abs_self _)
  norm_num
  linarith

theorem SetPath_two_of_gt (s e : vec2) (n : ℕ) (hn : 0 < n)
    (hs1 : -Real.pi < s.x) (he2 : e.x ≤ Real.pi) (hd : Real.pi < e.x - s.x) :
    2 ≤ (SetPath s e n).length := by
  have hpi := Real.pi_pos
  have hgap : 1 < e.x / Real.pi - s.x / Real.pi := by
    rw [← sub_div, lt_div_iff₀ hpi]
    linarith
  obtain ⟨i, hi, hP, hQ⟩ := exists_step
    (fun i => (pathClipCoord s e n i).x ≤ s.x / Real.pi)
    (fun i => e.x / Real.pi ≤ (pathClipCoord s e n i).x) n
    (fun i hi => (sample_of_gt s e n i hn hi hs1 he2 hd).1)
    ((sample_of_gt s e n 0 hn (Nat.zero_le n) hs1 he2 hd).2.1 rfl)
    ((sample_of_gt s e n n hn le_rfl hs1 he2 hd).2.2 rfl)
    (fun i _ hP hQ => by
      have hP' : (pathClipCoord s e n i).x ≤ s.x / Real.pi := hP
      have hQ' : e.x / Real.pi ≤ (pathClipCoord s e n i).x := hQ
      linarith)
  apply SetPath_two_of_jump s e n i hi
  have hP' : (pathClipCoord s e n i).x ≤ s.x / Real.pi := hP
  have hQ' : e.x / Real.pi ≤ (pathClipCoord s e n (i + 1)).x := hQ
  rw [gt_iff_lt]
  refine lt_of_lt_of_le ?_ (le_abs_self _)
  norm_num
  linarith

/-- In exact real arithmetic (no rounding): for two Mercator points with longitudes in
`(-π, π]` that differ by more than `π` in absolute value, the samples of
`Path::SetPath` with `numPoints = 100` fall into at least `2` segments.  The `float`
code departs from this where `cosAngle` rounds to `1.0f`. -/
theorem SetPath_exact_antimeridian_two_segments (startMercator endMercator : vec2)
    (hs1 : -Real.pi < startMercator.x) (hs2 : startMercator.x ≤ Real.pi)
    (he1 : -Real.pi < endMercator.x) (he2 : endMercator.x ≤ Real.pi)
    (hd : Real.pi < |endMercator.x - startMercator.x|) :
    2 ≤ (SetPath startMercator endMercator 100).length := by
  rcases lt_abs.1 hd with h | h
  · exact SetPath_two_of_gt startMercator endMercator 100 (by norm_num) hs1 he2 h
  · exact SetPath_two_of_lt startMercator endMercator 100 (by norm_num) hs2 he1 (by linarith)

/-! ## The antimeridian: nearly coincident end points -/

end MercatorMap
